import Mathlib

/-!
Verification of the `ansimage` block-to-glyph rendering engine.

This file is a shallow embedding of the core `processing` module of the
`ansimage` crate (`src/processing.rs`, together with the settings, error and
character-set modules) and proofs of the testable properties stated in the
specification.

Modelling conventions:

* The source performs its numeric work on `f32` values.  The embedding uses
  exact rational arithmetic (`ℚ`).  All control flow of the source depends on
  numeric values only through order comparisons and through the composite
  "round a scaled brightness to a character index" computations; both are
  embedded exactly (see `luv_distance_sq`, `one_color_index`,
  `two_color_index`, `srgb_channel_u8`).
* The source's `luv_distance` is the Euclidean distance
  `sqrt ((Δl)² + (Δu)² + (Δv)²)`.  Every use of it in the source either
  compares two distances — and `x ↦ x²` is strictly monotone on nonnegative
  reals, so comparing the squares `luv_distance_sq` is the same comparison —
  or feeds a brightness formula whose final rounded character index is
  computed here exactly from the squared distances by comparing against
  rational thresholds.
* The sRGB ↔ CIE L*u*v* conversions live in the external `palette` crate
  (outside this repository); they are modelled from the spec ("standard
  forward transform referenced to a fixed white point", inverse transform with
  per-channel rounding and clamping).  Image decoding, resizing and
  quantization are external collaborators per the spec and take no part in
  the embedded core; the embedding consumes a pixel buffer whose entries are
  already converted to L*u*v*.
-/

namespace Ansimage

set_option maxRecDepth 16000

/-- A CIE L*u*v* color, the perceptually uniform working space of the source
(`type LuvColor = Luv<D65, f32>`), with exact rational components. -/
structure LuvColor where
  l : ℚ
  u : ℚ
  v : ℚ
deriving DecidableEq, Repr

/-- RGB colors as tuples of 8-bit components (`type RGB8 = (u8, u8, u8)`);
each component is a natural number in `[0, 255]` by construction. -/
abbrev RGB8 : Type := ℕ × ℕ × ℕ

/-- The black constant `BLACK_LUV: LuvColor = Luv::new(0.0, 0.0, 0.0)`
from `src/lib.rs`. -/
def BLACK_LUV : LuvColor := ⟨0, 0, 0⟩

/-- The square of the source's `luv_distance` (CIEDE76 Euclidean distance):
`luv_distance c1 c2 = sqrt (luv_distance_sq c1 c2)`.  The source only ever
uses distances inside order comparisons or inside the exactly-embedded
index computations, so the square carries all the information. -/
def luv_distance_sq (c1 c2 : LuvColor) : ℚ :=
  (c1.l - c2.l) ^ 2 + (c1.u - c2.u) ^ 2 + (c1.v - c2.v) ^ 2

/-- Embedding of `blend(a, b, r)`: linear interpolation
component-wise, `a * r + b * (1 - r)`. -/
def blend (a b : LuvColor) (r : ℚ) : LuvColor :=
  ⟨a.l * r + b.l * (1 - r), a.u * r + b.u * (1 - r), a.v * r + b.v * (1 - r)⟩

/-- Embedding of `average_color`: component-wise mean of a list of colors,
defaulting to `BLACK_LUV` for the empty list exactly as the source does. -/
def average_color (colors : List LuvColor) : LuvColor :=
  let count : ℚ := colors.length
  if colors.length = 0 then BLACK_LUV
  else
    let sums := colors.foldl
      (fun (acc : ℚ × ℚ × ℚ) c => (acc.1 + c.l, acc.2.1 + c.u, acc.2.2 + c.v))
      (0, 0, 0)
    ⟨sums.1 / count, sums.2.1 / count, sums.2.2 / count⟩

/-- Embedding of `find_lightest_darkest`: scan keeping the color with the
strictly greatest `l` and the one with the strictly least `l`, first
occurrence winning ties.  The source indexes `colors[0]` and is only called
on the four block colors; the empty case (which would panic in the source)
is given the unreachable default `(BLACK_LUV, BLACK_LUV)`. -/
def find_lightest_darkest (colors : List LuvColor) : LuvColor × LuvColor :=
  match colors with
  | [] => (BLACK_LUV, BLACK_LUV)
  | c :: cs =>
    cs.foldl
      (fun (acc : LuvColor × LuvColor) c =>
        (if acc.1.l < c.l then c else acc.1, if c.l < acc.2.l then c else acc.2))
      (c, c)

/-- Exact model of Rust's `f32::round` (round half away from zero) on exact
rational values.  Mathlib's `round` rounds half up, which agrees on
nonnegative inputs; negative inputs are handled by reflection. -/
def rustRound (x : ℚ) : ℤ :=
  if x < 0 then -round (-x) else round x

/-- Embedding of `brightness_to_char_index`: `(brightness * (len - 1))`
rounded, cast to `usize` (saturating at 0 for negative values, modelled by
`Int.toNat`), then clamped by `min` with `len - 1`.  For `char_set_len = 0`
the source's `usize` subtraction would panic; the `ℕ` subtraction makes the
embedding total there (the value is never used: character sets are
validated non-empty). -/
def brightness_to_char_index (brightness : ℚ) (char_set_len : ℕ) : ℕ :=
  let len_f : ℚ := (char_set_len - 1 : ℕ)
  let index := (rustRound (brightness * len_f)).toNat
  min index (char_set_len - 1)

/-- Exact embedding of the composite OneColor index computation of
`process_ascii`:

`brightness_to_char_index (1 - min (sqrt q / 100) 1) len`

where `q` is the squared distance of the rendered color to black.  Writing
`m = len - 1` and `x = (1 - min (sqrt q / 100) 1) * m ∈ [0, m]`, the rounded
clamped index equals the number of `k ∈ [1, m]` with `k - 1/2 ≤ x`, and each
such comparison is equivalent to the rational comparison
`q ≤ 10000 * ((2m - 2k + 1) / (2m))²`.  The equivalence with the real-number
formula is proved in `one_color_index_eq_real` below. -/
def one_color_index (q : ℚ) (len : ℕ) : ℕ :=
  let m := len - 1
  (List.range m).countP fun i =>
    decide (q ≤ 10000 * (((2 * (m : ℚ) - 2 * ((i + 1 : ℕ) : ℚ) + 1)) / (2 * (m : ℚ))) ^ 2)

/-- Exact embedding of the composite TwoColor index computation of
`process_ascii`:

`brightness_to_char_index b len` with
`b = if sqrt qt < 1e-5 then 0 else min (sqrt qa / sqrt qt) 1`,

where `qa` and `qt` are the squared average-to-darkest and
lightest-to-darkest distances.  `sqrt qt < 1e-5` is the rational comparison
`qt < 1e-10`, and `k - 1/2 ≤ min (sqrt (qa/qt)) 1 * m` is the rational
comparison `((2k-1) / (2m))² * qt ≤ qa`. -/
def two_color_index (qa qt : ℚ) (len : ℕ) : ℕ :=
  let m := len - 1
  if qt < 1 / 10000000000 then 0
  else (List.range m).countP fun i =>
    decide ((((2 * ((i + 1 : ℕ) : ℚ) - 1) / (2 * (m : ℚ))) ^ 2) * qt ≤ qa)

/-- Modelled from the spec: the X component of the D65 reference white used
by the external `palette` crate's color conversions ("referenced to a fixed
white point"); standard 2° observer value 0.95047 (Yn = 1). -/
def whiteX : ℚ := 95047 / 100000

/-- Modelled from the spec: the Z component of the D65 reference white,
standard 2° observer value 1.08883. -/
def whiteZ : ℚ := 108883 / 100000

/-- Modelled from the spec: the CIE L*u*v* → XYZ step of the "reverse
transform" of §4.1, which in the source is the external `palette` crate's
`Srgb::from_color_unclamped`.  Non-positive lightness maps to black; the
rational divisions are total in Lean (division by zero yields zero), which
only matters outside the gamut the source ever produces. -/
def luv_to_xyz (c : LuvColor) : ℚ × ℚ × ℚ :=
  if c.l ≤ 0 then (0, 0, 0)
  else
    let dn : ℚ := whiteX + 15 + 3 * whiteZ
    let un : ℚ := 4 * whiteX / dn
    let vn : ℚ := 9 / dn
    let u1 := c.u / (13 * c.l) + un
    let v1 := c.v / (13 * c.l) + vn
    let y : ℚ := if 8 < c.l then ((c.l + 16) / 116) ^ 3 else c.l * (3 / 29) ^ 3
    (y * (9 * u1) / (4 * v1), y, y * (12 - 3 * u1 - 20 * v1) / (4 * v1))

/-- Modelled from the spec: one threshold of the sRGB gamma encoding.
`srgb_gamma_thr k` is `((k - 1/2) / 255 + 0.055) / 1.055`, the linear-domain
value whose encoded, scaled-by-255 image is exactly `k - 1/2`. -/
def srgb_gamma_thr (k : ℕ) : ℚ :=
  ((2 * (k : ℚ) - 1) / 510 + 11 / 200) * 200 / 211

/-- Modelled from the spec: one channel of the final
`(srgb_component * 255).round().clamp(0.0, 255.0) as u8` step of
`luv_to_rgb`, composed with the standard sRGB gamma encoding
(`12.92 c` below the linear threshold, `1.055 c^(1/2.4) - 0.055` above).
On the gamma branch the rounded clamped value equals the number of
`k ∈ [1, 255]` with `k - 1/2 ≤ 255 * (1.055 c^(1/2.4) - 0.055)`, and each
such comparison is the exact rational comparison
`(srgb_gamma_thr k)¹² ≤ c⁵` because `x ↦ x¹²` is monotone on nonnegatives
and `(c^(1/2.4))¹² = c⁵`. -/
def srgb_channel_u8 (c : ℚ) : ℕ :=
  if c ≤ 31308 / 10000000 then
    min ((rustRound (323 / 25 * c * 255)).toNat) 255
  else
    (List.range 255).countP fun i => decide (srgb_gamma_thr (i + 1) ^ 12 ≤ c ^ 5)

/-- Embedding of `luv_to_rgb`: convert back to sRGB (via the spec-modelled
reverse transform and the standard XYZ → linear sRGB matrix), then round and
clamp each channel to `[0, 255]`. -/
def luv_to_rgb (c : LuvColor) : RGB8 :=
  let xyz := luv_to_xyz c
  let r : ℚ :=
    32404542 / 10000000 * xyz.1 - 15371385 / 10000000 * xyz.2.1
      - 4985314 / 10000000 * xyz.2.2
  let g : ℚ :=
    -9692660 / 10000000 * xyz.1 + 18760108 / 10000000 * xyz.2.1
      + 415560 / 10000000 * xyz.2.2
  let b : ℚ :=
    556434 / 10000000 * xyz.1 - 2040259 / 10000000 * xyz.2.1
      + 10572252 / 10000000 * xyz.2.2
  (srgb_channel_u8 r, srgb_channel_u8 g, srgb_channel_u8 b)

/-- Modelled from the spec: the L*u*v* value of pure sRGB white
`(255, 255, 255)` under the D65-referenced standard forward transform of
§4.1 (performed in the source by the external `palette` crate):
`L* = 100`, `u* = v* = 0` by definition of the reference white. -/
def WHITE_LUV : LuvColor := ⟨100, 0, 0⟩

/-- Embedding of `find_closest`: linear scan for the palette entry
minimizing the perceptual distance, first occurrence winning ties
(Rust's `Iterator::min_by` returns the first minimum); an empty palette
returns the color itself (`unwrap_or(color)`). -/
def find_closest (color : LuvColor) (palette : List LuvColor) : LuvColor :=
  match palette with
  | [] => color
  | p :: ps =>
    ps.foldl
      (fun best c =>
        if luv_distance_sq color c < luv_distance_sq color best then c else best)
      p

/-- `lt_opt d m` models the comparison `d < min_dist` of the source where
`min_dist` starts at `f32::MAX` (modelled by `none`, which every actual
distance compares less than). -/
def lt_opt (d : ℚ) (m : Option ℚ) : Bool :=
  match m with
  | none => true
  | some m0 => decide (d < m0)

/-- Embedding of the first loop of `find_closest_pair` (flag set): scan the
palette keeping the entry, its distance to `color1` and its index, replacing
the accumulator only on a strictly smaller distance. -/
def scan1 (c : LuvColor) :
    List LuvColor → ℕ → LuvColor × Option ℚ × ℕ → LuvColor × Option ℚ × ℕ
  | [], _, acc => acc
  | p :: ps, i, acc =>
    let d := luv_distance_sq c p
    scan1 c ps (i + 1) (if lt_opt d acc.2.1 then (p, some d, i) else acc)

/-- Embedding of the second loop of `find_closest_pair` (flag set): like
`scan1` but skipping the already-taken slot `idx1`, so the result always
comes from a different palette entry. -/
def scan2 (c : LuvColor) (idx1 : ℕ) :
    List LuvColor → ℕ → LuvColor × Option ℚ → LuvColor × Option ℚ
  | [], _, acc => acc
  | p :: ps, i, acc =>
    if i = idx1 then scan2 c idx1 ps (i + 1) acc
    else
      let d := luv_distance_sq c p
      scan2 c idx1 ps (i + 1) (if lt_opt d acc.2 then (p, some d) else acc)

/-- The two palette entries resolved by `find_closest_pair` with the
distinctness flag set, before the brightness reordering: the closest entry
to `color1`, then the closest entry to `color2` excluding that slot.  The
second scan is initialized with `palette[1]` when the first slot was taken,
`palette[0]` otherwise, exactly as in the source. -/
def resolved_distinct_pair (c1 c2 : LuvColor) (palette : List LuvColor) :
    LuvColor × LuvColor :=
  let s1 := scan1 c1 palette 0 (palette.headD BLACK_LUV, none, 0)
  let idx1 := s1.2.2
  let s2 := scan2 c2 idx1 palette 0
    (palette.getD (if idx1 = 0 then 1 else 0) BLACK_LUV, none)
  (s1.1, s2.1)

/-- Embedding of `find_closest_pair`: empty palettes yield black, singleton
palettes the single entry twice; without the flag the two colors are
resolved independently; with the flag the distinct pair is resolved and
then reordered so the entry closer to black comes second (background). -/
def find_closest_pair (color1 color2 : LuvColor) (palette : List LuvColor)
    (order_by_brightness : Bool) : LuvColor × LuvColor :=
  if palette.isEmpty then (BLACK_LUV, BLACK_LUV)
  else if palette.length = 1 then (palette.headD BLACK_LUV, palette.headD BLACK_LUV)
  else if !order_by_brightness then
    (find_closest color1 palette, find_closest color2 palette)
  else
    let r := resolved_distinct_pair color1 color2 palette
    if luv_distance_sq r.1 BLACK_LUV < luv_distance_sq r.2 BLACK_LUV then
      (r.2, r.1)
    else (r.1, r.2)

/-- The four L*u*v* colors of a 2×2 pixel block (`&[LuvColor; 4]`),
addressed top-left, top-right, bottom-left, bottom-right. -/
structure Block where
  c1 : LuvColor
  c2 : LuvColor
  c3 : LuvColor
  c4 : LuvColor
deriving DecidableEq, Repr

/-- The block's colors as the slice `colors[0..4]`. -/
def Block.toList (b : Block) : List LuvColor := [b.c1, b.c2, b.c3, b.c4]

/-- Embedding of `calculate_block_distance`: map the candidate character to
its 2×2 foreground/background reconstruction pattern and sum the squared
perceptual distances of the four sub-pixels.  The source computes
`d₄·d₄ + d₃·d₃ + d₁·d₁ + d₂·d₂` with `dᵢ` Euclidean distances, which is
exactly the sum of the squared distances. -/
def calculate_block_distance (original : Block) (fg bg : LuvColor)
    (character : Char) : ℚ :=
  let pat : LuvColor × LuvColor × LuvColor × LuvColor :=
    match character with
    | '▀' => (fg, fg, bg, bg)
    | '▐' => (bg, fg, bg, fg)
    | '▞' => (bg, fg, fg, bg)
    | '▖' => (bg, bg, fg, bg)
    | '▘' => (fg, bg, bg, bg)
    | '▝' => (bg, fg, bg, bg)
    | '▗' => (bg, bg, bg, fg)
    | '█' => (fg, fg, fg, fg)
    | '░' => (blend fg bg (1/4), blend fg bg (1/4), blend fg bg (1/4), blend fg bg (1/4))
    | '▒' => (blend fg bg (1/2), blend fg bg (1/2), blend fg bg (1/2), blend fg bg (1/2))
    | '▓' => (blend fg bg (3/4), blend fg bg (3/4), blend fg bg (3/4), blend fg bg (3/4))
    | _ => (bg, bg, bg, bg)
  luv_distance_sq original.c1 pat.1 + luv_distance_sq original.c2 pat.2.1
    + luv_distance_sq original.c3 pat.2.2.1 + luv_distance_sq original.c4 pat.2.2.2

/-- Predefined Unicode character-set variants (`UnicodeCharSet`). -/
inductive UnicodeCharSet where
  | Full
  | Half
  | Quarter
  | Shade
deriving DecidableEq, Repr

/-- Color rendering mode (`ColorMode`): foreground only, or foreground plus
background. -/
inductive ColorMode where
  | OneColor
  | TwoColor
deriving DecidableEq, Repr

/-- The candidate characters of `process_unicode` with their ideal
foreground and background colors, in catalog order, exactly as built by the
`match charset` expression of the source. -/
def candidates (colors : Block) (charset : UnicodeCharSet) :
    List (Char × LuvColor × LuvColor) :=
  match charset with
  | .Full => [('█', average_color colors.toList, BLACK_LUV)]
  | .Half =>
    [('▀', average_color [colors.c1, colors.c2], average_color [colors.c3, colors.c4])]
  | .Quarter =>
    [('▀', average_color [colors.c1, colors.c2], average_color [colors.c3, colors.c4]),
     ('▐', average_color [colors.c2, colors.c4], average_color [colors.c1, colors.c3]),
     ('▞', average_color [colors.c2, colors.c3], average_color [colors.c1, colors.c4]),
     ('▖', colors.c3, average_color [colors.c1, colors.c2, colors.c4]),
     ('▘', colors.c1, average_color [colors.c2, colors.c3, colors.c4]),
     ('▝', colors.c2, average_color [colors.c1, colors.c3, colors.c4]),
     ('▗', colors.c4, average_color [colors.c1, colors.c2, colors.c3])]
  | .Shade =>
    [(' ', BLACK_LUV, BLACK_LUV),
     ('░', average_color colors.toList, BLACK_LUV),
     ('▒', average_color colors.toList, BLACK_LUV),
     ('▓', average_color colors.toList, BLACK_LUV)]

/-- The scoring step of `process_unicode`: palette-snap the candidate's
ideal colors (non-distinct variant) and compute its block reconstruction
error. -/
def score (colors : Block) (palette : Option (List LuvColor))
    (cand : Char × LuvColor × LuvColor) : ℚ × Char × LuvColor × LuvColor :=
  let fgbg :=
    match palette with
    | none => (cand.2.1, cand.2.2)
    | some p => find_closest_pair cand.2.1 cand.2.2 p false
  (calculate_block_distance colors fgbg.1 fgbg.2 cand.1, cand.1, fgbg.1, fgbg.2)

/-- The `min_by … total_cmp` scan of `process_unicode`: first strictly
smaller score wins (Rust's `min_by` keeps the first of equally minimal
elements), with the source's `map_or` default for the (unreachable) empty
candidate list. -/
def select_min (scored : List (ℚ × Char × LuvColor × LuvColor)) :
    Char × LuvColor × LuvColor :=
  match scored with
  | [] => (' ', BLACK_LUV, BLACK_LUV)
  | x :: xs =>
    let m := xs.foldl (fun acc y => if y.1 < acc.1 then y else acc) x
    (m.2.1, m.2.2.1, m.2.2.2)

/-- Embedding of `process_unicode`: the `Full` charset takes the fast path
(solid block, averaged and optionally palette-snapped foreground, no
background); otherwise every candidate is scored and the minimum-error one
selected, with the background emitted only in `TwoColor` mode. -/
def process_unicode (colors : Block) (charset : UnicodeCharSet)
    (color_mode : ColorMode) (palette : Option (List LuvColor)) :
    Char × Option RGB8 × Option RGB8 :=
  if charset = .Full then
    let avg_color := average_color colors.toList
    let final_color :=
      match palette with
      | none => avg_color
      | some p => find_closest avg_color p
    ('█', some (luv_to_rgb final_color), none)
  else
    let best := select_min ((candidates colors charset).map (score colors palette))
    let fg := some (luv_to_rgb best.2.1)
    let bg := if color_mode = .TwoColor then some (luv_to_rgb best.2.2) else none
    (best.1, fg, bg)

/-- Embedding of `process_ascii`: `TwoColor` mode snaps the block's lightest
and darkest colors (distinct-pair rule) and selects the ramp character from
the relative position of the block average between darkest and lightest;
`OneColor` mode renders the (optionally snapped) average color and selects
the character from its distance to black.  The composite rounded index
computations are embedded exactly by `two_color_index` / `one_color_index`.
Indexing the character set uses `getD`: the source's `char_set[index]` is
in bounds whenever the set is non-empty, which option validation
guarantees. -/
def process_ascii (colors : Block) (char_set : List Char)
    (color_mode : ColorMode) (palette : Option (List LuvColor)) :
    Char × Option RGB8 × Option RGB8 :=
  if color_mode = .TwoColor then
    let ld := find_lightest_darkest colors.toList
    let fgbg :=
      match palette with
      | none => ld
      | some p => find_closest_pair ld.1 ld.2 p true
    let avg := average_color colors.toList
    let qt := luv_distance_sq ld.1 ld.2
    let qa := luv_distance_sq avg ld.2
    let index := two_color_index qa qt char_set.length
    (char_set.getD index ' ', some (luv_to_rgb fgbg.1), some (luv_to_rgb fgbg.2))
  else
    let avg_color := average_color colors.toList
    let fg_luv :=
      match palette with
      | none => avg_color
      | some p => find_closest avg_color p
    let index := one_color_index (luv_distance_sq fg_luv BLACK_LUV) char_set.length
    (char_set.getD index ' ', some (luv_to_rgb fg_luv), none)

/-- The full ASCII brightness ramp `ASCII_CHARS_ALL` from `src/sets.rs`,
darkest to brightest (92 characters).  A few characters are written with
`Char.ofNat` (backtick 96, apostrophe 39, braces 123/125). -/
def ASCII_CHARS_ALL : List Char :=
  [' ', Char.ofNat 96, '.', '-', Char.ofNat 39, ':', '_', ',', '^', '=', ';', '>',
   '<', '+', '!', 'r', 'c', '*', '/',
   'z', '?', 's', 'L', 'T', 'v', ')', 'J', '7', '(', '|', 'F', 'i', Char.ofNat 123,
   'C', Char.ofNat 125, 'f', 'I', '3',
   '1', 't', 'l', 'u', '[', 'n', 'e', 'o', 'Z', '5', 'Y', 'x', 'j', 'y', 'a', ']',
   '2', 'E', 'S',
   'w', 'q', 'k', 'P', '6', 'h', '9', 'd', '4', 'V', 'p', 'O', 'G', 'b', 'U', 'A',
   'K', 'X', 'H',
   'm', '8', 'R', 'D', '#', '$', 'B', 'g', '0', 'M', 'N', 'W', 'Q', '%', '&', '@']

/-- `ASCII_CHARS_NO_SPACE` from `src/sets.rs`: the full ramp without the
leading space. -/
def ASCII_CHARS_NO_SPACE : List Char := ASCII_CHARS_ALL.tail

/-- `ASCII_CHARS_AZ` from `src/sets.rs`: alphabetic subset of the ramp. -/
def ASCII_CHARS_AZ : List Char :=
  ['r', 'c', 'z', 's', 'L', 'T', 'v', 'J', 'F', 'i', 'C', 'f', 'I', 't', 'l', 'u',
   'n', 'e', 'o', 'Z', 'Y', 'x', 'j', 'y', 'a', 'E', 'S', 'w', 'q', 'k', 'P', 'h',
   'd', 'V', 'p', 'O', 'G', 'b', 'U', 'A', 'K', 'X', 'H', 'm', 'R', 'D', 'B', 'g',
   'M', 'N', 'W', 'Q']

/-- `ASCII_CHARS_NUM` from `src/sets.rs`: numeric subset of the ramp. -/
def ASCII_CHARS_NUM : List Char :=
  ['7', '3', '1', '5', '2', '6', '9', '4', '8', '0']

/-- `ASCII_CHARS_SPEC` from `src/sets.rs`: special-character subset of the
ramp. -/
def ASCII_CHARS_SPEC : List Char :=
  [Char.ofNat 96, '.', '-', Char.ofNat 39, ':', '_', ',', '^', '=', ';', '>', '<',
   '+', '!', '*', '/', '?', ')', '(', '|', Char.ofNat 123, Char.ofNat 125, '[',
   ']', '#', '$', '%', '&', '@']

/-- Predefined ASCII charset variants (`AsciiCharSet`). -/
inductive AsciiCharSet where
  | All
  | NoSpace
  | Az
  | Nums
  | Spec
deriving DecidableEq, Repr

/-- Embedding of `AsciiCharSet::as_slice`. -/
def AsciiCharSet.as_slice : AsciiCharSet → List Char
  | .All => ASCII_CHARS_ALL
  | .NoSpace => ASCII_CHARS_NO_SPACE
  | .Az => ASCII_CHARS_AZ
  | .Nums => ASCII_CHARS_NUM
  | .Spec => ASCII_CHARS_SPEC

/-- Character mode (`CharacterMode`): a predefined ASCII ramp, a predefined
Unicode block set, or a user-supplied custom dark→bright character list. -/
inductive CharacterMode where
  | Ascii (cs : AsciiCharSet)
  | Unicode (cs : UnicodeCharSet)
  | Custom (chars : List Char)
deriving DecidableEq, Repr

/-- Character settings (`Characters`).  The `aspect_r` field of the source
(`aspect_ratio: f32`) is consumed only by the excluded dimension-fitting
step and is omitted from the embedding. -/
structure Characters where
  mode : CharacterMode
  color_mode : ColorMode
deriving DecidableEq, Repr

/-- Color settings (`Colors`).  The source stores the palette as sRGB
triples and converts it to L*u*v* once per row via the external `palette`
crate; the embedding carries the already-converted palette (the conversion
is a per-entry map, so emptiness and length are preserved). -/
structure Colors where
  is_truecolor : Bool
  palette : List LuvColor
deriving DecidableEq, Repr

/-- Advanced settings (`Advanced`), restricted to the one field the core
consumes: the compression flag.  The resize filter and dithering options
configure the excluded resizing/quantization collaborators. -/
structure Advanced where
  compression : Bool
deriving DecidableEq, Repr

/-- Render settings (`Settings`).  The `size` field configures only the
excluded dimension-fitting step; the embedded conversion takes the final
character grid size directly. -/
structure Settings where
  characters : Characters
  colors : Colors
  advanced : Advanced
deriving DecidableEq, Repr

/-- The per-row pre-converted palette of `process_row`: `none` in truecolor
mode, otherwise the (already L*u*v*) palette. -/
def paletted_colors (s : Settings) : Option (List LuvColor) :=
  if s.colors.is_truecolor then none else some s.colors.palette

/-- The per-block dispatch of `process_row`: Unicode modes go to
`process_unicode`, ASCII and Custom modes to `process_ascii` with the
corresponding character list (the source's `if let … else match` with its
`unreachable!` arm is a total match here). -/
def decide_block (colors : Block) (s : Settings) :
    Char × Option RGB8 × Option RGB8 :=
  match s.characters.mode with
  | .Unicode charset => process_unicode colors charset s.characters.color_mode (paletted_colors s)
  | .Ascii cs => process_ascii colors cs.as_slice s.characters.color_mode (paletted_colors s)
  | .Custom v => process_ascii colors v s.characters.color_mode (paletted_colors s)

/-- The 2×2 block of L*u*v* pixels at pixel position `(x_px, y_px)` of the
(already converted) source buffer, in the order the source reads them. -/
def blockAt (img : ℕ → ℕ → LuvColor) (x_px y_px : ℕ) : Block :=
  ⟨img x_px y_px, img (x_px + 1) y_px, img x_px (y_px + 1), img (x_px + 1) (y_px + 1)⟩

/-- One atomic piece of row output: a color-set or color-reset ANSI escape
sequence, a glyph character, or the trailing full reset.  `process_row`
produces the row string by concatenating the renderings of these tokens in
emission order. -/
inductive AnsiToken where
  | setFg (c : RGB8)
  | resetFg
  | setBg (c : RGB8)
  | resetBg
  | glyph (c : Char)
  | reset0
deriving DecidableEq, Repr

/-- One loop iteration of `process_row`: given the row state (last emitted
foreground, last emitted background, tokens so far) and the block's render
decision, emit the foreground escape when the color changed or compression
is off, then likewise for the background, then the glyph. -/
def emit_step (compression : Bool)
    (st : Option RGB8 × Option RGB8 × List AnsiToken)
    (dec : Char × Option RGB8 × Option RGB8) :
    Option RGB8 × Option RGB8 × List AnsiToken :=
  let write_fg := dec.2.1 ≠ st.1 ∨ compression = false
  let write_bg := dec.2.2 ≠ st.2.1 ∨ compression = false
  let acc1 :=
    if write_fg then
      st.2.2 ++ [match dec.2.1 with
                 | some c => AnsiToken.setFg c
                 | none => AnsiToken.resetFg]
    else st.2.2
  let acc2 :=
    if write_bg then
      acc1 ++ [match dec.2.2 with
               | some c => AnsiToken.setBg c
               | none => AnsiToken.resetBg]
    else acc1
  (if write_fg then dec.2.1 else st.1,
   if write_bg then dec.2.2 else st.2.1,
   acc2 ++ [AnsiToken.glyph dec.1])

/-- The token stream of `process_row`: walk the row's blocks left to right
threading the compression state, then append the unconditional full reset. -/
def process_row_tokens (y_char width_char : ℕ) (img : ℕ → ℕ → LuvColor)
    (s : Settings) : List AnsiToken :=
  let r := (List.range width_char).foldl
    (fun st x_char =>
      emit_step s.advanced.compression st
        (decide_block (blockAt img (2 * x_char) (2 * y_char)) s))
    (none, none, [])
  r.2.2 ++ [AnsiToken.reset0]

/-- The ANSI rendering of one output token, matching the escape sequences
written by `process_row`. -/
def render_token : AnsiToken → String
  | .setFg c => "\x1b[38;2;" ++ toString c.1 ++ ";" ++ toString c.2.1 ++ ";"
      ++ toString c.2.2 ++ "m"
  | .resetFg => "\x1b[39m"
  | .setBg c => "\x1b[48;2;" ++ toString c.1 ++ ";" ++ toString c.2.1 ++ ";"
      ++ toString c.2.2 ++ "m"
  | .resetBg => "\x1b[49m"
  | .glyph c => String.mk [c]
  | .reset0 => "\x1b[0m"

/-- Embedding of `process_row`: the concatenated rendering of the row's
token stream. -/
def process_row (y_char width_char : ℕ) (img : ℕ → ℕ → LuvColor)
    (s : Settings) : String :=
  String.join ((process_row_tokens y_char width_char img s).map render_token)

/-- The glyph carried by a token, if it is a glyph token: stripping all
ANSI escape sequences from a rendered row leaves exactly these characters
(plus nothing from the final reset). -/
def glyph_of_token : AnsiToken → Option Char
  | .glyph c => some c
  | _ => none

/-- The error enum of `src/error.rs`, restricted to the two kinds the core
can raise (the `Image` and `Io` kinds wrap failures of the excluded
file-loading collaborators). -/
inductive AnsiImageError where
  | InvalidSettings (msg : String)
  | Processing (msg : String)
deriving DecidableEq, Repr

/-- Embedding of `convert_image` at the core boundary drawn by the spec:
settings are validated first, before any other work; on success the rows
of the pre-sized, pre-converted pixel buffer are processed and joined with
newlines.  The resizing and quantization stages between validation and the
per-row pass live in external crates (`fast_image_resize`, `imagequant`)
and are outside the embedded core; consequently the buffer is taken
already sized to `2·w × 2·h` and already converted, which preserves the
validation behaviour and the row output exactly. -/
def convert_image (img : ℕ → ℕ → LuvColor) (w h : ℕ) (settings : Settings) :
    Except AnsiImageError String :=
  if settings.colors.is_truecolor = false ∧ settings.colors.palette = [] then
    .error (.InvalidSettings "A color palette must be selected when not in truecolor mode.")
  else if (match settings.characters.mode with
           | .Custom chars => chars.isEmpty
           | _ => false) then
    .error (.InvalidSettings "Custom character mode requires at least one character.")
  else
    .ok (String.intercalate "\n"
      ((List.range h).map fun y => process_row y w img settings))

/-! ## Helper lemmas -/

theorem rustRound_of_nonneg {x : ℚ} (h : 0 ≤ x) : rustRound x = round x := by
  simp [rustRound, not_lt.mpr h]

theorem rustRound_nonpos {x : ℚ} (h : x ≤ 0) : rustRound x ≤ 0 := by
  unfold rustRound
  split
  · have : (0 : ℤ) ≤ round (-x) := by
      rw [round_eq]
      exact Int.le_floor.mpr (by push_cast; linarith)
    omega
  · have hx : x = 0 := le_antisymm h (not_lt.mp (by assumption))
    simp [hx]

theorem rustRound_mono {a b : ℚ} (h : a ≤ b) : rustRound a ≤ rustRound b := by
  unfold rustRound
  rcases lt_or_le a 0 with ha | ha
  · rcases lt_or_le b 0 with hb | hb
    · simp only [if_pos ha, if_pos hb, neg_le_neg_iff]
      rw [round_eq, round_eq]
      exact Int.floor_mono (by linarith)
    · simp only [if_pos ha, if_neg (not_lt.mpr hb)]
      have h1 : (0 : ℤ) ≤ round (-a) := by
        rw [round_eq]
        exact Int.le_floor.mpr (by push_cast; linarith)
      have h2 : (0 : ℤ) ≤ round b := by
        rw [round_eq]
        exact Int.le_floor.mpr (by push_cast; linarith)
      omega
  · have hb : ¬ b < 0 := not_lt.mpr (le_trans ha h)
    simp only [if_neg (not_lt.mpr ha), if_neg hb]
    rw [round_eq, round_eq]
    exact Int.floor_mono (by linarith)

/-- Either `scan1` never replaces its accumulator, or it returns some list
element together with its distance and its absolute index. -/
theorem scan1_cases (c : LuvColor) :
    ∀ (l : List LuvColor) (i : ℕ) (acc : LuvColor × Option ℚ × ℕ),
      scan1 c l i acc = acc ∨
      ∃ k, ∃ hk : k < l.length,
        scan1 c l i acc =
          (l.get ⟨k, hk⟩, some (luv_distance_sq c (l.get ⟨k, hk⟩)), i + k) := by
  intro l
  induction l with
  | nil => intro i acc; exact Or.inl rfl
  | cons p ps ih =>
    intro i acc
    show scan1 c (p :: ps) i acc = _ ∨ _
    rw [scan1]
    rcases ih (i + 1) (if lt_opt (luv_distance_sq c p) acc.2.1
        then (p, some (luv_distance_sq c p), i) else acc) with h | ⟨k, hk, h⟩
    · rw [h]
      split
      · exact Or.inr ⟨0, by simp, by simp⟩
      · exact Or.inl rfl
    · refine Or.inr ⟨k + 1, by simpa using Nat.succ_lt_succ hk, ?_⟩
      rw [h]
      simp [List.get_cons_succ]
      omega

/-- `scan1` started on a non-empty palette with the source's initial
accumulator returns a palette entry and its index. -/
theorem scan1_spec (c : LuvColor) (pal : List LuvColor) (h : pal ≠ []) :
    ∃ k, ∃ hk : k < pal.length,
      (scan1 c pal 0 (pal.headD BLACK_LUV, none, 0)).1 = pal.get ⟨k, hk⟩ ∧
      (scan1 c pal 0 (pal.headD BLACK_LUV, none, 0)).2.2 = k := by
  rcases scan1_cases c pal 0 (pal.headD BLACK_LUV, none, 0) with h0 | ⟨k, hk, h0⟩
  · obtain ⟨p, ps, rfl⟩ : ∃ p ps, pal = p :: ps := by
      cases pal with
      | nil => exact absurd rfl h
      | cons p ps => exact ⟨p, ps, rfl⟩
    exact ⟨0, by simp, by rw [h0]; simp, by rw [h0]⟩
  · exact ⟨k, hk, by rw [h0], by rw [h0]; simp⟩

/-- Either `scan2` never replaces its accumulator, or it returns a list
element whose absolute index differs from the excluded slot `idx1`. -/
theorem scan2_cases (c : LuvColor) (idx1 : ℕ) :
    ∀ (l : List LuvColor) (i : ℕ) (acc : LuvColor × Option ℚ),
      scan2 c idx1 l i acc = acc ∨
      ∃ k, ∃ hk : k < l.length, i + k ≠ idx1 ∧
        scan2 c idx1 l i acc =
          (l.get ⟨k, hk⟩, some (luv_distance_sq c (l.get ⟨k, hk⟩))) := by
  intro l
  induction l with
  | nil => intro i acc; exact Or.inl rfl
  | cons p ps ih =>
    intro i acc
    show scan2 c idx1 (p :: ps) i acc = _ ∨ _
    rw [scan2]
    split
    · rcases ih (i + 1) acc with h | ⟨k, hk, hne, h⟩
      · exact Or.inl h
      · refine Or.inr ⟨k + 1, by simpa using Nat.succ_lt_succ hk, by omega, ?_⟩
        rw [h]
        simp [List.get_cons_succ]
    · rcases ih (i + 1) (if lt_opt (luv_distance_sq c p) acc.2
          then (p, some (luv_distance_sq c p)) else acc) with h | ⟨k, hk, hne, h⟩
      · rw [h]
        split
        · exact Or.inr ⟨0, by simp, by simpa using (by assumption : ¬ i = idx1), by simp⟩
        · exact Or.inl rfl
      · refine Or.inr ⟨k + 1, by simpa using Nat.succ_lt_succ hk, by omega, ?_⟩
        rw [h]
        simp [List.get_cons_succ]

/-- `scan2` started with the source's initial accumulator on a palette of
length at least two returns a palette entry from a slot other than
`idx1`, provided `idx1` is in bounds. -/
theorem scan2_spec (c : LuvColor) (idx1 : ℕ) (pal : List LuvColor)
    (hlen : 2 ≤ pal.length) :
    ∃ j, ∃ hj : j < pal.length, j ≠ idx1 ∧
      (scan2 c idx1 pal 0
        (pal.getD (if idx1 = 0 then 1 else 0) BLACK_LUV, none)).1 =
        pal.get ⟨j, hj⟩ := by
  rcases scan2_cases c idx1 pal 0
      (pal.getD (if idx1 = 0 then 1 else 0) BLACK_LUV, none) with h0 | ⟨k, hk, hne, h0⟩
  · by_cases hz : idx1 = 0
    · refine ⟨1, by omega, by omega, ?_⟩
      rw [h0]
      show pal.getD (if idx1 = 0 then 1 else 0) BLACK_LUV = _
      rw [if_pos hz, List.getD_eq_getElem pal BLACK_LUV (by omega : 1 < pal.length)]
      simp
    · refine ⟨0, by omega, fun h => hz h.symm, ?_⟩
      rw [h0]
      show pal.getD (if idx1 = 0 then 1 else 0) BLACK_LUV = _
      rw [if_neg hz, List.getD_eq_getElem pal BLACK_LUV (by omega : 0 < pal.length)]
      simp
  · exact ⟨k, hk, by omega, by rw [h0]⟩

/-- On palettes of length at least two, `find_closest_pair` with the flag
set is the black-distance reordering of the resolved distinct pair. -/
theorem find_closest_pair_of_two_le (c1 c2 : LuvColor) (pal : List LuvColor)
    (h : 2 ≤ pal.length) :
    find_closest_pair c1 c2 pal true =
      (if luv_distance_sq (resolved_distinct_pair c1 c2 pal).1 BLACK_LUV <
          luv_distance_sq (resolved_distinct_pair c1 c2 pal).2 BLACK_LUV then
        ((resolved_distinct_pair c1 c2 pal).2, (resolved_distinct_pair c1 c2 pal).1)
      else resolved_distinct_pair c1 c2 pal) := by
  have h1 : pal.isEmpty = false := by cases pal <;> simp_all
  have h2 : ¬ pal.length = 1 := by omega
  simp [find_closest_pair, h1, h2]

/-- The `min_by` fold (keep the accumulator unless the new element is
strictly smaller) returns the element at the first index attaining the
minimum of `f`. -/
theorem foldl_min_first {α : Type} (f : α → ℚ) :
    ∀ (xs : List α) (x : α),
      ∃ i, ∃ hi : i < (x :: xs).length,
        xs.foldl (fun acc y => if f y < f acc then y else acc) x = (x :: xs)[i] ∧
        (∀ j, ∀ hj : j < (x :: xs).length, f ((x :: xs)[i]) ≤ f ((x :: xs)[j])) ∧
        (∀ j, ∀ hj : j < (x :: xs).length, j < i → f ((x :: xs)[i]) < f ((x :: xs)[j])) := by
  intro xs
  induction xs with
  | nil =>
    intro x
    refine ⟨0, by simp, by simp, ?_, ?_⟩
    · intro j hj
      have hj0 : j = 0 := by simpa using hj
      subst hj0
      exact le_rfl
    · intro j hj hji
      omega
  | cons y ys ih =>
    intro x
    simp only [List.foldl_cons]
    by_cases hyx : f y < f x
    · rw [if_pos hyx]
      obtain ⟨i', hi', heq, hmin, hstrict⟩ := ih y
      have hi : i' + 1 < (x :: y :: ys).length := by simp at hi' ⊢; omega
      refine ⟨i' + 1, hi, ?_, ?_, ?_⟩
      · rw [heq]; simp
      · intro j hj
        have hcur : f ((x :: y :: ys)[i' + 1]) = f ((y :: ys)[i']) := by simp
        cases j with
        | zero =>
          have h0 : f ((y :: ys)[i']) ≤ f y := by simpa using hmin 0 (by simp)
          rw [hcur]
          simpa using le_trans h0 (le_of_lt hyx)
        | succ j =>
          rw [hcur]
          have hj' : j < (y :: ys).length := by simp at hj ⊢; omega
          simpa using hmin j hj'
      · intro j hj hji
        have hcur : f ((x :: y :: ys)[i' + 1]) = f ((y :: ys)[i']) := by simp
        cases j with
        | zero =>
          have h0 : f ((y :: ys)[i']) ≤ f y := by simpa using hmin 0 (by simp)
          rw [hcur]
          simpa using lt_of_le_of_lt h0 hyx
        | succ j =>
          rw [hcur]
          have hj' : j < (y :: ys).length := by simp at hj ⊢; omega
          simpa using hstrict j hj' (by omega)
    · rw [if_neg hyx]
      have hxy : f x ≤ f y := not_lt.mp hyx
      obtain ⟨i', hi', heq, hmin, hstrict⟩ := ih x
      cases i' with
      | zero =>
        refine ⟨0, by simp, ?_, ?_, ?_⟩
        · rw [heq]; simp
        · intro j hj
          cases j with
          | zero => simp
          | succ j =>
            cases j with
            | zero => simpa using hxy
            | succ j =>
              have hj' : j + 1 < (x :: ys).length := by simp at hj ⊢; omega
              have := hmin (j + 1) hj'
              simp only [List.getElem_cons_zero] at this
              simpa using this
        · intro j hj hji
          omega
      | succ k =>
        have hi : k + 2 < (x :: y :: ys).length := by simp at hi' ⊢; omega
        refine ⟨k + 2, hi, ?_, ?_, ?_⟩
        · rw [heq]; simp
        · intro j hj
          have hcur : f ((x :: y :: ys)[k + 2]) = f ((x :: ys)[k + 1]) := by simp
          cases j with
          | zero => rw [hcur]; simpa using hmin 0 (by simp)
          | succ j =>
            cases j with
            | zero =>
              rw [hcur]
              have h0 := hmin 0 (by simp)
              simp only [List.getElem_cons_zero] at h0
              simpa using le_trans h0 hxy
            | succ j =>
              rw [hcur]
              have hj' : j + 1 < (x :: ys).length := by simp at hj ⊢; omega
              simpa using hmin (j + 1) hj'
        · intro j hj hji
          have hcur : f ((x :: y :: ys)[k + 2]) = f ((x :: ys)[k + 1]) := by simp
          cases j with
          | zero =>
            rw [hcur]
            simpa using hstrict 0 (by simp) (by omega)
          | succ j =>
            cases j with
            | zero =>
              rw [hcur]
              have h0 := hstrict 0 (by simp) (by omega)
              simp only [List.getElem_cons_zero] at h0
              simpa using lt_of_lt_of_le h0 hxy
            | succ j =>
              rw [hcur]
              have hj' : j + 1 < (x :: ys).length := by simp at hj ⊢; omega
              simpa using hstrict (j + 1) hj' (by omega)

/-- `select_min` on a non-empty scored list returns the entry at the first
index attaining the minimal score. -/
theorem select_min_spec (l : List (ℚ × Char × LuvColor × LuvColor)) (hl : l ≠ []) :
    ∃ i, ∃ hi : i < l.length,
      select_min l = (l[i].2.1, l[i].2.2.1, l[i].2.2.2) ∧
      (∀ j, ∀ hj : j < l.length, l[i].1 ≤ l[j].1) ∧
      (∀ j, ∀ hj : j < l.length, j < i → l[i].1 < l[j].1) := by
  match l, hl with
  | x :: xs, _ =>
    obtain ⟨i, hi, heq, hmin, hstrict⟩ := foldl_min_first Prod.fst xs x
    refine ⟨i, hi, ?_, hmin, hstrict⟩
    simp only [select_min]
    rw [heq]

/-- One `emit_step` adds exactly one glyph token (the decision's
character); the escape tokens it may add are invisible to
`glyph_of_token`. -/
theorem emit_step_glyphs (c : Bool) (st : Option RGB8 × Option RGB8 × List AnsiToken)
    (dec : Char × Option RGB8 × Option RGB8) :
    (emit_step c st dec).2.2.filterMap glyph_of_token =
      st.2.2.filterMap glyph_of_token ++ [dec.1] := by
  cases hfg : dec.2.1 <;> cases hbg : dec.2.2 <;>
    simp [emit_step, hfg, hbg, glyph_of_token, List.filterMap_append,
      apply_ite (List.filterMap glyph_of_token)]

/-- The glyph characters produced by the row fold are exactly the decision
characters of the visited blocks, whatever the compression state. -/
theorem fold_glyphs (s : Settings) (img : ℕ → ℕ → LuvColor) (y : ℕ) :
    ∀ (xs : List ℕ) (st : Option RGB8 × Option RGB8 × List AnsiToken),
      (xs.foldl
        (fun st x => emit_step s.advanced.compression st
          (decide_block (blockAt img (2 * x) (2 * y)) s)) st).2.2.filterMap
            glyph_of_token =
      st.2.2.filterMap glyph_of_token ++
        xs.map (fun x => (decide_block (blockAt img (2 * x) (2 * y)) s).1) := by
  intro xs
  induction xs with
  | nil => intro st; simp
  | cons x xs ih =>
    intro st
    simp only [List.foldl_cons, List.map_cons]
    rw [ih, emit_step_glyphs]
    simp

/-- `emit_step` never emits the foreground-reset token when the decision's
foreground is present. -/
theorem emit_step_no_resetFg (c : Bool)
    (st : Option RGB8 × Option RGB8 × List AnsiToken)
    (dec : Char × Option RGB8 × Option RGB8) (hfg : dec.2.1 ≠ none)
    (hacc : AnsiToken.resetFg ∉ st.2.2) :
    AnsiToken.resetFg ∉ (emit_step c st dec).2.2 := by
  obtain ⟨fgc, hfgc⟩ : ∃ fgc, dec.2.1 = some fgc := by
    cases hv : dec.2.1 with
    | none => exact absurd hv hfg
    | some fgc => exact ⟨fgc, rfl⟩
  by_cases h1 : (dec.2.1 ≠ st.1 ∨ c = false) <;>
    by_cases h2 : (dec.2.2 ≠ st.2.1 ∨ c = false) <;>
      cases hbg : dec.2.2 <;>
        simp_all [emit_step, h1, h2, hfgc, hbg]

/-- `process_ascii` always returns a present foreground color. -/
theorem process_ascii_fg_isSome (colors : Block) (cs : List Char)
    (cm : ColorMode) (pal : Option (List LuvColor)) :
    (process_ascii colors cs cm pal).2.1.isSome = true := by
  simp only [process_ascii]
  split <;> simp

/-- `process_unicode` always returns a present foreground color. -/
theorem process_unicode_fg_isSome (colors : Block) (charset : UnicodeCharSet)
    (cm : ColorMode) (pal : Option (List LuvColor)) :
    (process_unicode colors charset cm pal).2.1.isSome = true := by
  simp only [process_unicode]
  split <;> simp

/-- Every block decision of a row has a present foreground. -/
theorem decide_block_fg_isSome (colors : Block) (s : Settings) :
    (decide_block colors s).2.1.isSome = true := by
  simp only [decide_block]
  cases s.characters.mode with
  | Ascii cs => exact process_ascii_fg_isSome ..
  | Unicode charset => exact process_unicode_fg_isSome ..
  | Custom v => exact process_ascii_fg_isSome ..

/-- Counting the elements of `range m` below `n` gives `min m n`. -/
theorem countP_range_lt (m n : ℕ) :
    (List.range m).countP (fun i => decide (i < n)) = min m n := by
  induction m with
  | zero => simp
  | succ m ih =>
    rw [List.range_succ, List.countP_append _ _ _, ih]
    by_cases h : m < n <;> simp [h] <;> omega

/-- The exact rational threshold computation `one_color_index` agrees with
the source's real-number formula: round the brightness
`1 - min (sqrt q / 100) 1` scaled by `len - 1`, clamped to the ramp. -/
theorem one_color_index_eq_real (q : ℚ) (len : ℕ) :
    (one_color_index q len : ℤ) =
      min (round ((1 - min (Real.sqrt (q : ℝ) / 100) 1) * ((len - 1 : ℕ) : ℝ)))
        ((len - 1 : ℕ) : ℤ) := by
  set m := len - 1 with hm
  set s : ℝ := Real.sqrt (q : ℝ) with hs
  have hs0 : 0 ≤ s := Real.sqrt_nonneg _
  set b : ℝ := 1 - min (s / 100) 1 with hb
  have hmin0 : 0 ≤ min (s / 100) 1 := le_min (by positivity) zero_le_one
  have hb0 : 0 ≤ b := by rw [hb]; have := min_le_right (s / 100) 1; linarith
  set x : ℝ := b * m with hx
  have hx0 : 0 ≤ x := mul_nonneg hb0 (Nat.cast_nonneg m)
  have hK0 : 0 ≤ round x := by
    rw [round_eq]
    exact Int.le_floor.mpr (by push_cast; linarith)
  have hpred : ∀ i ∈ List.range m,
      ((fun i => decide (q ≤
          10000 * (((2 * (m : ℚ) - 2 * ((i + 1 : ℕ) : ℚ) + 1)) / (2 * (m : ℚ))) ^ 2)) i
        = true ↔
       (fun i => decide (i < (round x).toNat)) i = true) := by
    intro i hi
    have him : i < m := List.mem_range.mp hi
    have hm1 : 1 ≤ m := by omega
    have hmR : (0 : ℝ) < (m : ℝ) := by exact_mod_cast Nat.pos_of_ne_zero (by omega)
    have hiR : ((i + 1 : ℕ) : ℝ) ≤ (m : ℝ) := by exact_mod_cast him
    simp only [decide_eq_true_eq]
    set t : ℝ := (2 * (m : ℝ) - 2 * ((i + 1 : ℕ) : ℝ) + 1) / (2 * (m : ℝ)) with ht
    have ht0 : 0 < t := div_pos (by push_cast at hiR ⊢; linarith) (by linarith)
    have ht1 : t < 1 := by
      rw [ht, div_lt_one (by linarith)]
      push_cast at hiR ⊢
      linarith
    have h1 : (q ≤ 10000 * (((2 * (m : ℚ) - 2 * ((i + 1 : ℕ) : ℚ) + 1)) /
        (2 * (m : ℚ))) ^ 2) ↔ (q : ℝ) ≤ 10000 * t ^ 2 := by
      rw [ht]
      constructor
      · intro h; exact_mod_cast h
      · intro h; exact_mod_cast h
    have h2 : ((q : ℝ) ≤ 10000 * t ^ 2) ↔ s ≤ 100 * t := by
      rw [hs]
      have h100 : (0 : ℝ) ≤ 100 * t := by linarith
      rw [Real.sqrt_le_left h100]
      constructor <;> intro h <;> nlinarith
    have h3 : (s ≤ 100 * t) ↔ min (s / 100) 1 ≤ t := by
      constructor
      · intro h
        exact le_trans (min_le_left _ _) (by linarith)
      · intro h
        rcases le_or_lt (s / 100) 1 with hc | hc
        · rw [min_eq_left hc] at h; linarith
        · rw [min_eq_right (le_of_lt hc)] at h; linarith
    have h4 : (min (s / 100) 1 ≤ t) ↔ (i + 1 : ℝ) ≤ x + 1 / 2 := by
      have hform : (1 - t) * (m : ℝ) = (i + 1 : ℝ) - 1 / 2 := by
        rw [ht]
        field_simp
        ring
      constructor
      · intro h
        have hbt : 1 - t ≤ b := by rw [hb]; linarith
        have := mul_le_mul_of_nonneg_right hbt (le_of_lt hmR)
        rw [hform] at this
        rw [hx]
        linarith
      · intro h
        rw [hx] at h
        have h5 : (1 - t) * (m : ℝ) ≤ b * (m : ℝ) := by rw [hform]; linarith
        have h6 : 1 - t ≤ b := le_of_mul_le_mul_right h5 hmR
        rw [hb] at h6
        linarith
    have h7 : ((i + 1 : ℝ) ≤ x + 1 / 2) ↔ i < (round x).toNat := by
      rw [round_eq]
      constructor
      · intro h
        have : ((i + 1 : ℤ) : ℝ) ≤ x + 1 / 2 := by push_cast; linarith
        have := Int.le_floor.mpr this
        omega
      · intro h
        have h8 : (i + 1 : ℤ) ≤ ⌊x + 1 / 2⌋ := by omega
        have := Int.le_floor.mp h8
        push_cast at this
        linarith
    rw [h1, h2, h3, h4, h7]
  simp only [one_color_index]
  rw [List.countP_congr hpred, countP_range_lt]
  have hKx : ((round x).toNat : ℤ) = round x := Int.toNat_of_nonneg hK0
  push_cast [Nat.cast_min]
  omega

/-! ## Claim theorems -/

/-- C7: for every ramp length `N ≥ 1`, the brightness-to-index mapping
equals `round (brightness * (N - 1))` clamped to `[0, N-1]`; it is monotone
in the brightness, `0` maps to index `0`, `1` maps to index `N - 1`, and
any brightness outside `[0, 1]` maps to the nearest boundary index. -/
theorem claim7_brightness_index_clamped (N : ℕ) (hN : 1 ≤ N) :
    (∀ b : ℚ, (brightness_to_char_index b N : ℤ) =
        max 0 (min (rustRound (b * ((N : ℚ) - 1))) ((N : ℤ) - 1))) ∧
    (∀ b b' : ℚ, b ≤ b' →
        brightness_to_char_index b N ≤ brightness_to_char_index b' N) ∧
    brightness_to_char_index 0 N = 0 ∧
    brightness_to_char_index 1 N = N - 1 ∧
    (∀ b : ℚ, b < 0 → brightness_to_char_index b N = 0) ∧
    (∀ b : ℚ, 1 < b → brightness_to_char_index b N = N - 1) := by
  have hlen : ((N - 1 : ℕ) : ℚ) = (N : ℚ) - 1 := by
    push_cast [Nat.cast_sub hN]; ring
  have hcast : ((N - 1 : ℕ) : ℤ) = (N : ℤ) - 1 := by omega
  refine ⟨?_, ?_, ?_, ?_, ?_, ?_⟩
  · intro b
    simp only [brightness_to_char_index, hlen]
    rw [Nat.cast_min, Int.toNat_eq_max, hcast]
    omega
  · intro b b' h
    simp only [brightness_to_char_index]
    have hx : b * ((N - 1 : ℕ) : ℚ) ≤ b' * ((N - 1 : ℕ) : ℚ) :=
      mul_le_mul_of_nonneg_right h (Nat.cast_nonneg _)
    exact min_le_min (Int.toNat_le_toNat (rustRound_mono hx)) le_rfl
  · simp [brightness_to_char_index, rustRound]
  · simp only [brightness_to_char_index, one_mul]
    rw [rustRound_of_nonneg (Nat.cast_nonneg _), round_natCast]
    simp
  · intro b hb
    simp only [brightness_to_char_index]
    have hx : b * ((N - 1 : ℕ) : ℚ) ≤ 0 :=
      mul_nonpos_of_nonpos_of_nonneg (le_of_lt hb) (Nat.cast_nonneg _)
    have := rustRound_nonpos hx
    omega
  · intro b hb
    simp only [brightness_to_char_index]
    have hx : ((N - 1 : ℕ) : ℚ) ≤ b * ((N - 1 : ℕ) : ℚ) :=
      le_mul_of_one_le_left (Nat.cast_nonneg _) (le_of_lt hb)
    have h1 := rustRound_mono hx
    rw [rustRound_of_nonneg (Nat.cast_nonneg _), round_natCast] at h1
    omega

/-- Witness for C7 at ramp length 10. -/
theorem claim7_witness : 1 ≤ 10 ∧ brightness_to_char_index 1 10 = 10 - 1 :=
  ⟨by decide, (claim7_brightness_index_clamped 10 (by decide)).2.2.2.1⟩

/-- C2: for every palette of length at least two and every pair of input
colors, `find_closest_pair` with the distinctness flag set returns two
colors taken from two distinct palette indices — even when the palette
contains duplicate color values at different positions. -/
theorem claim2_distinct_indices (c1 c2 : LuvColor) (pal : List LuvColor)
    (hpal : 2 ≤ pal.length) :
    ∃ i j, ∃ hi : i < pal.length, ∃ hj : j < pal.length, i ≠ j ∧
      find_closest_pair c1 c2 pal true = (pal.get ⟨i, hi⟩, pal.get ⟨j, hj⟩) := by
  have hne : pal ≠ [] := by cases pal <;> simp_all
  obtain ⟨k1, hk1, hc1, hidx⟩ := scan1_spec c1 pal hne
  obtain ⟨j, hj, hjne, hc2⟩ :=
    scan2_spec c2 ((scan1 c1 pal 0 (pal.headD BLACK_LUV, none, 0)).2.2) pal hpal
  have hjk : j ≠ k1 := by rw [hidx] at hjne; exact hjne
  have hr : resolved_distinct_pair c1 c2 pal = (pal.get ⟨k1, hk1⟩, pal.get ⟨j, hj⟩) := by
    simp only [resolved_distinct_pair]
    rw [hc1, hc2]
  rw [find_closest_pair_of_two_le c1 c2 pal hpal, hr]
  by_cases hlt : luv_distance_sq (pal.get ⟨k1, hk1⟩) BLACK_LUV <
      luv_distance_sq (pal.get ⟨j, hj⟩) BLACK_LUV
  · exact ⟨j, k1, hj, hk1, hjk, by rw [if_pos hlt]⟩
  · exact ⟨k1, j, hk1, hj, fun he => hjk he.symm, by rw [if_neg hlt]⟩

/-- Witness for C2: a two-entry palette whose entries are duplicate color
values at different positions. -/
theorem claim2_witness :
    2 ≤ ([⟨1, 2, 3⟩, ⟨1, 2, 3⟩] : List LuvColor).length ∧
    ∃ i j, ∃ hi : i < ([⟨1, 2, 3⟩, ⟨1, 2, 3⟩] : List LuvColor).length,
      ∃ hj : j < ([⟨1, 2, 3⟩, ⟨1, 2, 3⟩] : List LuvColor).length, i ≠ j ∧
      find_closest_pair WHITE_LUV BLACK_LUV [⟨1, 2, 3⟩, ⟨1, 2, 3⟩] true =
        (([⟨1, 2, 3⟩, ⟨1, 2, 3⟩] : List LuvColor).get ⟨i, hi⟩,
         ([⟨1, 2, 3⟩, ⟨1, 2, 3⟩] : List LuvColor).get ⟨j, hj⟩) :=
  ⟨by decide,
   claim2_distinct_indices WHITE_LUV BLACK_LUV [⟨1, 2, 3⟩, ⟨1, 2, 3⟩] (by decide)⟩

/-- C3: with the distinctness flag set the returned pair is the resolved
distinct pair up to the final swap, and the second component (the
background) is never perceptually farther from black than the first (the
foreground) — for every pair of input colors and every palette. -/
theorem claim3_background_nearer_black (c1 c2 : LuvColor) (pal : List LuvColor) :
    luv_distance_sq (find_closest_pair c1 c2 pal true).2 BLACK_LUV ≤
      luv_distance_sq (find_closest_pair c1 c2 pal true).1 BLACK_LUV ∧
    (2 ≤ pal.length →
      (find_closest_pair c1 c2 pal true = resolved_distinct_pair c1 c2 pal ∨
       find_closest_pair c1 c2 pal true =
        ((resolved_distinct_pair c1 c2 pal).2, (resolved_distinct_pair c1 c2 pal).1))) := by
  by_cases hpal : 2 ≤ pal.length
  · rw [find_closest_pair_of_two_le c1 c2 pal hpal]
    by_cases hlt : luv_distance_sq (resolved_distinct_pair c1 c2 pal).1 BLACK_LUV <
        luv_distance_sq (resolved_distinct_pair c1 c2 pal).2 BLACK_LUV
    · rw [if_pos hlt]
      exact ⟨le_of_lt hlt, fun _ => Or.inr rfl⟩
    · rw [if_neg hlt]
      exact ⟨not_lt.mp hlt, fun _ => Or.inl rfl⟩
  · refine ⟨?_, fun h => absurd h hpal⟩
    rcases pal with _ | ⟨p, _ | ⟨q, t⟩⟩
    · simp [find_closest_pair]
    · simp [find_closest_pair]
    · exact absurd (by simp : 2 ≤ (p :: q :: t).length) hpal

/-- Witness for C3 at a concrete palette of length two. -/
theorem claim3_witness :
    luv_distance_sq
        (find_closest_pair WHITE_LUV WHITE_LUV [⟨60, 0, 0⟩, ⟨10, 0, 0⟩] true).2
        BLACK_LUV ≤
      luv_distance_sq
        (find_closest_pair WHITE_LUV WHITE_LUV [⟨60, 0, 0⟩, ⟨10, 0, 0⟩] true).1
        BLACK_LUV ∧
    (find_closest_pair WHITE_LUV WHITE_LUV [⟨60, 0, 0⟩, ⟨10, 0, 0⟩] true =
        resolved_distinct_pair WHITE_LUV WHITE_LUV [⟨60, 0, 0⟩, ⟨10, 0, 0⟩] ∨
     find_closest_pair WHITE_LUV WHITE_LUV [⟨60, 0, 0⟩, ⟨10, 0, 0⟩] true =
        ((resolved_distinct_pair WHITE_LUV WHITE_LUV [⟨60, 0, 0⟩, ⟨10, 0, 0⟩]).2,
         (resolved_distinct_pair WHITE_LUV WHITE_LUV [⟨60, 0, 0⟩, ⟨10, 0, 0⟩]).1)) :=
  ⟨(claim3_background_nearer_black WHITE_LUV WHITE_LUV [⟨60, 0, 0⟩, ⟨10, 0, 0⟩]).1,
   (claim3_background_nearer_black WHITE_LUV WHITE_LUV [⟨60, 0, 0⟩, ⟨10, 0, 0⟩]).2
     (by decide)⟩

/-- C8: in Unicode non-`Full` modes, the block selector returns the scored
candidate at the first index attaining the minimal summed squared
reconstruction error — ties are broken strictly in favour of the earlier
catalog entry — with the background emitted only in `TwoColor` mode. -/
theorem claim8_min_error_first_wins (colors : Block) (charset : UnicodeCharSet)
    (cm : ColorMode) (pal : Option (List LuvColor)) (hcs : charset ≠ .Full) :
    ∃ i, ∃ hi : i < ((candidates colors charset).map (score colors pal)).length,
      process_unicode colors charset cm pal =
        (((candidates colors charset).map (score colors pal))[i].2.1,
         some (luv_to_rgb (((candidates colors charset).map (score colors pal))[i].2.2.1)),
         if cm = .TwoColor then
           some (luv_to_rgb (((candidates colors charset).map (score colors pal))[i].2.2.2))
         else none) ∧
      (∀ j, ∀ hj : j < ((candidates colors charset).map (score colors pal)).length,
        (((candidates colors charset).map (score colors pal))[i]).1 ≤
          (((candidates colors charset).map (score colors pal))[j]).1) ∧
      (∀ j, ∀ hj : j < ((candidates colors charset).map (score colors pal)).length,
        j < i →
        (((candidates colors charset).map (score colors pal))[i]).1 <
          (((candidates colors charset).map (score colors pal))[j]).1) := by
  have hne : (candidates colors charset).map (score colors pal) ≠ [] := by
    cases charset with
    | Full => exact absurd rfl hcs
    | Half => simp [candidates]
    | Quarter => simp [candidates]
    | Shade => simp [candidates]
  obtain ⟨i, hi, heq, hmin, hstrict⟩ :=
    select_min_spec ((candidates colors charset).map (score colors pal)) hne
  refine ⟨i, hi, ?_, hmin, hstrict⟩
  simp only [process_unicode, if_neg hcs]
  rw [heq]

/-- Witness for C8: a concrete block in Quarter mode. -/
theorem claim8_witness :
    (UnicodeCharSet.Quarter ≠ UnicodeCharSet.Full) ∧
    ∃ i, ∃ hi : i <
        ((candidates ⟨⟨90, 0, 0⟩, ⟨5, 0, 0⟩, ⟨5, 0, 0⟩, ⟨90, 0, 0⟩⟩ .Quarter).map
          (score ⟨⟨90, 0, 0⟩, ⟨5, 0, 0⟩, ⟨5, 0, 0⟩, ⟨90, 0, 0⟩⟩ none)).length,
      process_unicode ⟨⟨90, 0, 0⟩, ⟨5, 0, 0⟩, ⟨5, 0, 0⟩, ⟨90, 0, 0⟩⟩ .Quarter .TwoColor none =
        (((candidates ⟨⟨90, 0, 0⟩, ⟨5, 0, 0⟩, ⟨5, 0, 0⟩, ⟨90, 0, 0⟩⟩ .Quarter).map
            (score ⟨⟨90, 0, 0⟩, ⟨5, 0, 0⟩, ⟨5, 0, 0⟩, ⟨90, 0, 0⟩⟩ none))[i].2.1,
         some (luv_to_rgb (((candidates ⟨⟨90, 0, 0⟩, ⟨5, 0, 0⟩, ⟨5, 0, 0⟩, ⟨90, 0, 0⟩⟩ .Quarter).map
            (score ⟨⟨90, 0, 0⟩, ⟨5, 0, 0⟩, ⟨5, 0, 0⟩, ⟨90, 0, 0⟩⟩ none))[i].2.2.1)),
         if ColorMode.TwoColor = ColorMode.TwoColor then
           some (luv_to_rgb (((candidates ⟨⟨90, 0, 0⟩, ⟨5, 0, 0⟩, ⟨5, 0, 0⟩, ⟨90, 0, 0⟩⟩ .Quarter).map
            (score ⟨⟨90, 0, 0⟩, ⟨5, 0, 0⟩, ⟨5, 0, 0⟩, ⟨90, 0, 0⟩⟩ none))[i].2.2.2))
         else none) ∧
      (∀ j, ∀ hj : j <
          ((candidates ⟨⟨90, 0, 0⟩, ⟨5, 0, 0⟩, ⟨5, 0, 0⟩, ⟨90, 0, 0⟩⟩ .Quarter).map
            (score ⟨⟨90, 0, 0⟩, ⟨5, 0, 0⟩, ⟨5, 0, 0⟩, ⟨90, 0, 0⟩⟩ none)).length,
        (((candidates ⟨⟨90, 0, 0⟩, ⟨5, 0, 0⟩, ⟨5, 0, 0⟩, ⟨90, 0, 0⟩⟩ .Quarter).map
            (score ⟨⟨90, 0, 0⟩, ⟨5, 0, 0⟩, ⟨5, 0, 0⟩, ⟨90, 0, 0⟩⟩ none))[i]).1 ≤
          (((candidates ⟨⟨90, 0, 0⟩, ⟨5, 0, 0⟩, ⟨5, 0, 0⟩, ⟨90, 0, 0⟩⟩ .Quarter).map
            (score ⟨⟨90, 0, 0⟩, ⟨5, 0, 0⟩, ⟨5, 0, 0⟩, ⟨90, 0, 0⟩⟩ none))[j]).1) ∧
      (∀ j, ∀ hj : j <
          ((candidates ⟨⟨90, 0, 0⟩, ⟨5, 0, 0⟩, ⟨5, 0, 0⟩, ⟨90, 0, 0⟩⟩ .Quarter).map
            (score ⟨⟨90, 0, 0⟩, ⟨5, 0, 0⟩, ⟨5, 0, 0⟩, ⟨90, 0, 0⟩⟩ none)).length,
        j < i →
        (((candidates ⟨⟨90, 0, 0⟩, ⟨5, 0, 0⟩, ⟨5, 0, 0⟩, ⟨90, 0, 0⟩⟩ .Quarter).map
            (score ⟨⟨90, 0, 0⟩, ⟨5, 0, 0⟩, ⟨5, 0, 0⟩, ⟨90, 0, 0⟩⟩ none))[i]).1 <
          (((candidates ⟨⟨90, 0, 0⟩, ⟨5, 0, 0⟩, ⟨5, 0, 0⟩, ⟨90, 0, 0⟩⟩ .Quarter).map
            (score ⟨⟨90, 0, 0⟩, ⟨5, 0, 0⟩, ⟨5, 0, 0⟩, ⟨90, 0, 0⟩⟩ none))[j]).1) :=
  ⟨by decide,
   claim8_min_error_first_wins ⟨⟨90, 0, 0⟩, ⟨5, 0, 0⟩, ⟨5, 0, 0⟩, ⟨90, 0, 0⟩⟩
     .Quarter .TwoColor none (by decide)⟩

/-- C4: for every row of every (already converted) pixel buffer and every
settings, the row token stream produced with compression enabled carries
exactly the same glyph characters, in the same order, as the one produced
with compression disabled: stripping the ANSI escape tokens (the only
tokens `render_token` turns into escape sequences) leaves identical glyph
sequences. -/
theorem claim4_compression_preserves_glyphs (y w : ℕ)
    (img : ℕ → ℕ → LuvColor) (s : Settings) :
    (process_row_tokens y w img
        { s with advanced := { compression := true } }).filterMap glyph_of_token =
    (process_row_tokens y w img
        { s with advanced := { compression := false } }).filterMap glyph_of_token := by
  have key : ∀ s' : Settings,
      (process_row_tokens y w img s').filterMap glyph_of_token =
        (List.range w).map
          (fun x => (decide_block (blockAt img (2 * x) (2 * y)) s').1) := by
    intro s'
    simp only [process_row_tokens]
    rw [List.filterMap_append, fold_glyphs]
    simp [glyph_of_token]
  rw [key, key]
  have hdb : ∀ colors : Block,
      decide_block colors { s with advanced := { compression := true } } =
        decide_block colors { s with advanced := { compression := false } } :=
    fun _ => rfl
  simp only [hdb]

/-- C10: the render decision's foreground is always present — in both
`process_ascii` and `process_unicode`, for every block, character set,
color mode and palette — and consequently the foreground-reset token
(rendered as the `ESC[39m` escape) never appears in any row's token
stream. -/
theorem claim10_fg_always_present (y w : ℕ) (img : ℕ → ℕ → LuvColor)
    (s : Settings) :
    (∀ (colors : Block) (cs : List Char) (cm : ColorMode)
        (pal : Option (List LuvColor)),
      (process_ascii colors cs cm pal).2.1.isSome = true) ∧
    (∀ (colors : Block) (charset : UnicodeCharSet) (cm : ColorMode)
        (pal : Option (List LuvColor)),
      (process_unicode colors charset cm pal).2.1.isSome = true) ∧
    AnsiToken.resetFg ∉ process_row_tokens y w img s := by
  refine ⟨fun colors cs cm pal => process_ascii_fg_isSome colors cs cm pal,
    fun colors charset cm pal => process_unicode_fg_isSome colors charset cm pal, ?_⟩
  simp only [process_row_tokens]
  have key : ∀ (xs : List ℕ) (st : Option RGB8 × Option RGB8 × List AnsiToken),
      AnsiToken.resetFg ∉ st.2.2 →
      AnsiToken.resetFg ∉
        (xs.foldl
          (fun st x => emit_step s.advanced.compression st
            (decide_block (blockAt img (2 * x) (2 * y)) s)) st).2.2 := by
    intro xs
    induction xs with
    | nil => intro st h; exact h
    | cons x xs ih =>
      intro st h
      simp only [List.foldl_cons]
      refine ih _ (emit_step_no_resetFg _ _ _ ?_ h)
      have := decide_block_fg_isSome (blockAt img (2 * x) (2 * y)) s
      cases hv : (decide_block (blockAt img (2 * x) (2 * y)) s).2.1 with
      | none => rw [hv] at this; exact absurd this (by simp)
      | some c => simp [hv]
  have hmem := key (List.range w) (none, none, []) (by simp)
  intro hmem2
  rcases List.mem_append.mp hmem2 with h | h
  · exact hmem h
  · simp at h

/-- C6: in ASCII/Custom `OneColor` mode the rendered color is the
(palette-snapped via `find_closest` when a palette is active) average of the
four sub-pixel colors, and the ramp index is the exact embedding of
`brightness_to_char_index (1 - min (dist_to_black / 100) 1) len` — the
second conjunct ties `one_color_index` to that real-number brightness
formula. -/
theorem claim6_one_color_brightness (q : ℚ) (_hq : 0 ≤ q) (len : ℕ) :
    (∀ (colors : Block) (cs : List Char) (pal : Option (List LuvColor)),
      process_ascii colors cs .OneColor pal =
        (cs.getD (one_color_index (luv_distance_sq
            (match pal with
             | none => average_color colors.toList
             | some p => find_closest (average_color colors.toList) p) BLACK_LUV)
            cs.length) ' ',
         some (luv_to_rgb (match pal with
             | none => average_color colors.toList
             | some p => find_closest (average_color colors.toList) p)),
         none)) ∧
    ((one_color_index q len : ℤ) =
      min (round ((1 - min (Real.sqrt (q : ℝ) / 100) 1) * ((len - 1 : ℕ) : ℝ)))
        ((len - 1 : ℕ) : ℤ)) := by
  refine ⟨?_, one_color_index_eq_real q len⟩
  intro colors cs pal
  cases pal <;> rfl

/-- Witness for C6 at squared distance 2500 (`sqrt 2500 / 100 = 1/2`) and
ramp length 5. -/
theorem claim6_witness :
    (0 ≤ (2500 : ℚ)) ∧
    ((one_color_index 2500 5 : ℤ) =
      min (round ((1 - min (Real.sqrt ((2500 : ℚ) : ℝ) / 100) 1) * ((5 - 1 : ℕ) : ℝ)))
        ((5 - 1 : ℕ) : ℤ)) :=
  ⟨by decide, (claim6_one_color_brightness 2500 (by decide) 5).2⟩

/-- C1 counterexample: a 2×2 block whose average is pure white, in ASCII
`All` charset, `OneColor` mode, truecolor — the block selector does NOT
return the last (brightest) ramp character: white is at distance 100 from
black, so the source's brightness `1 - min (100/100) 1` is `0` and the
FIRST ramp character (the space) is selected. -/
theorem claim1_counterexample :
    average_color (Block.mk WHITE_LUV WHITE_LUV WHITE_LUV WHITE_LUV).toList =
      WHITE_LUV ∧
    (process_ascii ⟨WHITE_LUV, WHITE_LUV, WHITE_LUV, WHITE_LUV⟩
        ASCII_CHARS_ALL .OneColor none).1 ≠
      ASCII_CHARS_ALL.getD (ASCII_CHARS_ALL.length - 1) ' ' := by
  constructor
  · with_unfolding_all decide
  · with_unfolding_all decide

/-- C1 (amended): in ASCII `All` charset, `OneColor` mode, truecolor, a
2×2 block whose average color is pure white selects the FIRST (darkest)
ramp character — the space at index 0 — with foreground `(255, 255, 255)`
and no background emitted. -/
theorem claim1_white_block_first_char (colors : Block)
    (havg : average_color colors.toList = WHITE_LUV) :
    process_ascii colors ASCII_CHARS_ALL .OneColor none =
      (ASCII_CHARS_ALL.getD 0 ' ', some (255, 255, 255), none) := by
  have h1 : process_ascii colors ASCII_CHARS_ALL .OneColor none =
      (ASCII_CHARS_ALL.getD
        (one_color_index
          (luv_distance_sq (average_color colors.toList) BLACK_LUV)
          ASCII_CHARS_ALL.length) ' ',
       some (luv_to_rgb (average_color colors.toList)), none) := rfl
  rw [h1, havg]
  with_unfolding_all decide

/-- Witness for the amended C1 at the all-white block. -/
theorem claim1_witness :
    average_color (Block.mk WHITE_LUV WHITE_LUV WHITE_LUV WHITE_LUV).toList =
      WHITE_LUV ∧
    process_ascii ⟨WHITE_LUV, WHITE_LUV, WHITE_LUV, WHITE_LUV⟩
        ASCII_CHARS_ALL .OneColor none =
      (ASCII_CHARS_ALL.getD 0 ' ', some (255, 255, 255), none) :=
  ⟨by with_unfolding_all decide,
   claim1_white_block_first_char ⟨WHITE_LUV, WHITE_LUV, WHITE_LUV, WHITE_LUV⟩
     (by with_unfolding_all decide)⟩

/-- C9: in Unicode `Full` glyph mode, for every 2×2 block and every color
mode (including `TwoColor`), the block selector bypasses candidate scoring
and returns the solid block glyph with foreground the (palette-snapped when
a palette is active) average of the four sub-pixel colors and no background
color. -/
theorem claim9_full_block_fast_path (colors : Block) (cm : ColorMode)
    (pal : Option (List LuvColor)) :
    process_unicode colors .Full cm pal =
      ('█',
       some (luv_to_rgb (match pal with
         | none => average_color colors.toList
         | some p => find_closest (average_color colors.toList) p)),
       none) := by
  cases pal <;> rfl

/-- C5: the embedded `convert_image` fails with an `InvalidSettings` error
exactly when truecolor is off and the palette is empty, or when the
character mode is `Custom` with an empty character list; the first failure
carries the palette message, and any failure is decided by the settings
alone — independent of the pixel buffer and requested dimensions, i.e.
before any resizing, quantization or per-row work. -/
theorem claim5_invalid_settings (img img' : ℕ → ℕ → LuvColor)
    (w h w' h' : ℕ) (s : Settings) :
    ((∃ msg, convert_image img w h s = .error (.InvalidSettings msg)) ↔
      ((s.colors.is_truecolor = false ∧ s.colors.palette = []) ∨
       (∃ chars, s.characters.mode = .Custom chars ∧ chars = []))) ∧
    ((s.colors.is_truecolor = false ∧ s.colors.palette = []) →
      convert_image img w h s = .error (.InvalidSettings
        "A color palette must be selected when not in truecolor mode.")) ∧
    (∀ e, convert_image img w h s = .error e →
      convert_image img' w' h' s = .error e) := by
  by_cases h1 : s.colors.is_truecolor = false ∧ s.colors.palette = []
  · refine ⟨?_, fun _ => by simp [convert_image, h1], ?_⟩
    · constructor
      · intro _; exact Or.inl h1
      · intro _
        exact ⟨"A color palette must be selected when not in truecolor mode.",
          by simp [convert_image, h1]⟩
    · intro e he
      simp only [convert_image, if_pos h1] at he ⊢
      exact he
  · by_cases h2 : (match s.characters.mode with
      | .Custom chars => chars.isEmpty
      | _ => false) = true
    · have h2' : ∃ chars, s.characters.mode = .Custom chars ∧ chars = [] := by
        revert h2
        cases hm : s.characters.mode <;> simp_all [List.isEmpty_iff]
      refine ⟨?_, fun hc => absurd hc h1, ?_⟩
      · constructor
        · intro _; exact Or.inr h2'
        · intro _
          exact ⟨"Custom character mode requires at least one character.",
            by simp only [convert_image, if_neg h1, if_pos h2]⟩
      · intro e he
        simp only [convert_image, if_neg h1, if_pos h2] at he ⊢
        exact he
    · have h2' : ¬ ∃ chars, s.characters.mode = .Custom chars ∧ chars = [] := by
        rintro ⟨chars, hm, rfl⟩
        simp [hm] at h2
      refine ⟨?_, fun hc => absurd hc h1, ?_⟩
      · constructor
        · rintro ⟨msg, hmsg⟩
          simp only [convert_image, if_neg h1, if_neg h2] at hmsg
          exact absurd hmsg (by simp)
        · rintro (hc | hc)
          · exact absurd hc h1
          · exact absurd hc h2'
      · intro e he
        simp only [convert_image, if_neg h1, if_neg h2] at he
        exact absurd he (by simp)

end Ansimage





